import Mathlib

/-!
Verification of the interlinear-gloss formatting engine (the `remarkGloss`
plugin).  The definitions below are a shallow embedding of the plugin's
functions: mdast inline nodes become the `Phrasing` inductive (text nodes
carry their character list; rich inline nodes are opaque), JS arrays become
lists, JS `undefined` becomes `Option`, and the thrown structural error
becomes `Except`.  JS strings are modelled as `List Char`.
-/

namespace GlossPlugin

/-- An mdast `PhrasingContent` node as seen by the gloss engine: a `text`
node carrying its string value, a `break` node, or any other (rich) inline
node, opaque to the engine and identified by a tag. -/
inductive Phrasing where
  | text (value : List Char)
  | brk
  | rich (tag : Nat)
deriving DecidableEq, Repr

/-- A word: an ordered sequence of inline spans (`PhrasingContent[]`). -/
abbrev Word := List Phrasing

/-- A line: an ordered sequence of words (`PhrasingContent[][]`). -/
abbrev Line := List Word

/-- `type RowType = "text" | "transliteration" | "gloss"`. -/
inductive RowType where
  | text
  | transliteration
  | gloss
deriving DecidableEq, Repr

/-- `interface GlossRow { type: RowType; words: PhrasingContent[][] }`. -/
structure GlossRow where
  type : RowType
  words : List Word
deriving DecidableEq, Repr

/-- `interface Gloss { header; rows; footer }`. -/
structure Gloss where
  header : Option (List Phrasing)
  rows : List GlossRow
  footer : Option (List Phrasing)
deriving DecidableEq, Repr

/-- Result type of `parseLinePrefix`. -/
inductive ParsedLine where
  | meta (content : List Phrasing)
  | row (type : RowType) (words : List Word)
deriving DecidableEq, Repr

/-- The intermediate `Line` union used inside `parseGlossNode`. -/
inductive LineEntry where
  | meta (content : List Phrasing)
  | row (row : GlossRow)
deriving DecidableEq, Repr

/-- A block-level child of the gloss container directive: `parseGlossNode`
only inspects whether `child.type === "paragraph"`; every other node kind
is opaque. -/
inductive BlockNode where
  | paragraph (children : List Phrasing)
  | other (tag : Nat)
deriving DecidableEq, Repr

/-- `interface ColumnWord { type: RowType; word: PhrasingContent[] | undefined }`. -/
structure ColumnWord where
  type : RowType
  word : Option (List Phrasing)
deriving DecidableEq, Repr

/-- The character class of the JavaScript regular-expression escape `\s`
(ECMAScript WhiteSpace plus LineTerminator). -/
def isWS (c : Char) : Bool :=
  c = ' ' || c = '\t' || c = '\n' || c = '\r' || c = '\u000B' || c = '\u000C' ||
  c = '\u00A0' || c = '\u1680' || ('\u2000' ≤ c && c ≤ '\u200A') ||
  c = '\u2028' || c = '\u2029' || c = '\u202F' || c = '\u205F' ||
  c = '\u3000' || c = '\uFEFF'

/-- Maximal runs of characters of equal whitespace-class.  These are exactly
the non-empty tokens produced by `text.split(/(\s+)/)` (the JS split keeps
the captured whitespace runs and may add empty strings at the ends, which
the caller skips). -/
def groupRuns : List Char → List (List Char)
  | [] => []
  | [c] => [[c]]
  | c :: c' :: cs =>
    match groupRuns (c' :: cs) with
    | [] => [[c]]
    | g :: gs => if isWS c = isWS c' then (c :: g) :: gs else [c] :: g :: gs

/-- `text.split("\n")` on the character list. -/
def splitNl : List Char → List (List Char)
  | [] => [[]]
  | c :: cs =>
    if c = '\n' then [] :: splitNl cs
    else
      match splitNl cs with
      | [] => [[c]]
      | l :: ls => (c :: l) :: ls

/-- Apply `f` to the last element of a list (models mutating `arr.at(-1)`). -/
def modifyLast (f : α → α) : List α → List α
  | [] => []
  | [a] => [f a]
  | a :: b :: l => a :: modifyLast f (b :: l)

/-- `lines.push([[]])` — open a fresh line holding one empty word. -/
def newLine (lines : List Line) : List Line := lines ++ [[[]]]

/-- `lines.at(-1)!.push([])` — open a fresh word in the current line. -/
def newWord (lines : List Line) : List Line :=
  modifyLast (fun l => l ++ [[]]) lines

/-- `lines.at(-1)!.at(-1)!.push(x)` — append a span to the current word. -/
def pushSpan (x : Phrasing) (lines : List Line) : List Line :=
  modifyLast (modifyLast (fun w => w ++ [x])) lines

/-- `processTextLine`: split one newline-free fragment on whitespace runs;
an empty token is skipped, a whitespace token opens a new word, any other
token is appended to the current word as a text span. -/
def processTextLine (text : List Char) (lines : List Line) : List Line :=
  (groupRuns text).foldl
    (fun ls tok =>
      if tok.isEmpty then ls
      else if tok.all isWS then newWord ls
      else pushSpan (.text tok) ls)
    lines

/-- `processTextNode`: split the text on `"\n"`; every fragment after the
first opens a new line first. -/
def processTextNode (text : List Char) (lines : List Line) : List Line :=
  match splitNl text with
  | [] => lines
  | t :: ts =>
    ts.foldl (fun ls t2 => processTextLine t2 (newLine ls)) (processTextLine t lines)

/-- One step of the loop in `extractLines` over `paragraph.children`. -/
def extractStep (lines : List Line) (child : Phrasing) : List Line :=
  match child with
  | .brk => newLine lines
  | .text v => processTextNode v lines
  | .rich t => pushSpan (.rich t) lines

/-- `extractLines`: run the extraction loop starting from `[[[]]]`, then drop
empty words and then empty lines. -/
def extractLines (children : List Phrasing) : List Line :=
  let lines := children.foldl extractStep [[[]]]
  (lines.map (fun line => line.filter (fun w => !w.isEmpty))).filter
    (fun l => !l.isEmpty)

/-- The match `text.match(/^([|/=])\s*/)`: on success, the marker character
and the remainder `text.slice(prefixMatch[0].length)` (the matched part is
the marker plus the maximal following whitespace run). -/
def matchMarker (t : List Char) : Option (Char × List Char) :=
  match t with
  | [] => none
  | c :: cs =>
    if c = '|' ∨ c = '/' ∨ c = '=' then some (c, cs.dropWhile isWS) else none

/-- The flattening loop in the `"|"` branch of the classifier: concatenate
the words, inserting a single-space text span before every word but the
first. -/
def metaContent : List Word → List Phrasing
  | [] => []
  | w :: ws => w ++ (ws.map (fun w2 => Phrasing.text [' '] :: w2)).flatten

/-- Whether a span is a plain text node (`node.type === "text"`). -/
def Phrasing.isText : Phrasing → Bool
  | .text _ => true
  | _ => false

/-- The word list left after a marker match: strip the marker and following
whitespace from the first span; drop that span if it became empty, and drop
the first word if it became empty.  `cs` is the first span's text after the
marker character, `w` the rest of the first word, `rest` the later words. -/
def strippedTail (cs : List Char) (w : Word) (rest : List Word) : List Word :=
  let remainder := cs.dropWhile isWS
  let newFirstWord :=
    if 0 < remainder.length then Phrasing.text remainder :: w else w
  if 0 < newFirstWord.length then newFirstWord :: rest else rest

/-- The classifier `parseLinePrefix` from the source: examine the first span
of the first word for a leading marker in `|`, `/`, `=` and classify the
line, rebuilding the word list without the marker. -/
def parseLineMarker (words : List Word) : ParsedLine :=
  match words with
  | [] => .row .text []
  | firstWord :: restWords =>
    match firstWord with
    | [] => .row .text ([] :: restWords)
    | firstNode :: restSpans =>
      match firstNode with
      | .text t =>
        match matchMarker t with
        | none => .row .text ((Phrasing.text t :: restSpans) :: restWords)
        | some (marker, remainder) =>
          let newFirstWord :=
            if 0 < remainder.length then Phrasing.text remainder :: restSpans
            else restSpans
          let newWords :=
            if 0 < newFirstWord.length then newFirstWord :: restWords
            else restWords
          if marker = '|' then .meta (metaContent newWords)
          else if marker = '/' then .row .transliteration newWords
          else if marker = '=' then .row .gloss newWords
          else .row .text ((Phrasing.text t :: restSpans) :: restWords)
      | firstNode => .row .text ((firstNode :: restSpans) :: restWords)

/-- The message of the error thrown for a misplaced meta line. -/
def structuralErrorMsg : String :=
  "Header and footer lines denoted by '|' may only appear at the beginning or end of a gloss block"

/-- Wrap a classifier result as a `Line` entry of `parseGlossNode`. -/
def classifyLine (line : Line) : LineEntry :=
  match parseLineMarker line with
  | .meta content => .meta content
  | .row t ws => .row ⟨t, ws⟩

/-- The first loop of `parseGlossNode`: extract and classify the lines of
every paragraph child, skipping children of any other type. -/
def collectLines (children : List BlockNode) : List LineEntry :=
  children.foldl
    (fun acc child =>
      match child with
      | .paragraph phr => acc ++ (extractLines phr).map classifyLine
      | .other _ => acc)
    []

/-- The non-meta rows of a classified line list, in order. -/
def rowsOf (lines : List LineEntry) : List GlossRow :=
  lines.filterMap
    (fun l =>
      match l with
      | .meta _ => none
      | .row r => some r)

/-- The indexed second loop of `parseGlossNode`: `n` is the full line count,
`i` the current index, `header`, `footer` and `rows` the mutable state. -/
def assembleGo (n : Nat) (i : Nat) (header footer : Option (List Phrasing))
    (rows : List GlossRow) : List LineEntry → Except String Gloss
  | [] => .ok ⟨header, rows, footer⟩
  | l :: ls =>
    match l with
    | .meta content =>
      if i ≠ 0 ∧ i ≠ n - 1 then .error structuralErrorMsg
      else if i = 0 then assembleGo n (i + 1) (some content) footer rows ls
      else assembleGo n (i + 1) header (some content) rows ls
    | .row r => assembleGo n (i + 1) header footer (rows ++ [r]) ls

/-- The header/footer/rows assembly loop of `parseGlossNode`. -/
def assembleLines (lines : List LineEntry) : Except String Gloss :=
  assembleGo lines.length 0 none none [] lines

/-- `parseGlossNode` on the children of the gloss container directive; the
thrown `Error` becomes `Except.error` carrying the message. -/
def parseGlossNode (children : List BlockNode) : Except String Gloss :=
  assembleLines (collectLines children)

/-- `buildColumns`, up to the per-cell data handed to `createColumn`:
`numColumns` is `Math.max(0, ...rows.map(row => row.words.length))`, and
column `col` is `rows.map(row => ({ type: row.type, word: row.words[col] }))`
with JS `undefined` modelled as `none`.  The purely presentational mdast
wrapping done by `createColumn` is not modelled. -/
def buildColumns (rows : List GlossRow) : List (List ColumnWord) :=
  let numColumns := rows.foldl (fun m row => max m row.words.length) 0
  (List.range numColumns).map
    (fun col => rows.map (fun row => ⟨row.type, row.words[col]?⟩))

/-- A `containerDirective` node as visited by `remarkGloss`: its directive
name, its block-level children, and an identifier standing for the node
itself (its source position), to which `file.fail` attaches the message. -/
structure Directive where
  name : String
  nodeId : Nat
  children : List BlockNode
deriving DecidableEq, Repr

/-- A `VFileMessage`: the reason passed to `file.fail` and the node the
message is attached to (`file.fail(reason, node)`). -/
structure VMessage where
  reason : String
  nodeId : Nat
deriving DecidableEq, Repr

/-- The data the plugin computes for one gloss block before handing it to
the presentational constructors (`createHeader`, `createWordGrid`,
`createFooter`), which only wrap these pieces in mdast nodes. -/
structure GlossOutput where
  header : Option (List Phrasing)
  columns : List (List ColumnWord)
  footer : Option (List Phrasing)
deriving DecidableEq, Repr

/-- The body of the `visit` callback of `remarkGloss` on one directive node:
a non-`gloss` directive is skipped (`none`); on a `gloss` directive,
`parseGlossNode` runs and a thrown error is caught and re-raised by
`file.fail((error as Error).message, node)`, which throws a `VFileMessage`
attached to the directive node.  (`file.fail` cannot return normally here:
if it did, the following destructuring of the never-assigned `parseResult`
would itself throw.  So the failing branch always raises.) -/
def transformGloss (node : Directive) : Except VMessage (Option GlossOutput) :=
  if node.name = "gloss" then
    match parseGlossNode node.children with
    | .error msg => .error ⟨msg, node.nodeId⟩
    | .ok g => .ok (some ⟨g.header, buildColumns g.rows, g.footer⟩)
  else .ok none

/-- The transformer returned by `remarkGloss`, over the document's directive
nodes in visit order.  `visit` runs the callback sequentially and does not
catch exceptions, so the `VFileMessage` thrown by `file.fail` for one block
aborts the whole traversal: nodes after the failing one are not visited. -/
def remarkGloss : List Directive → Except VMessage (List (Option GlossOutput))
  | [] => .ok []
  | d :: ds =>
    match transformGloss d with
    | .error e => .error e
    | .ok v =>
      match remarkGloss ds with
      | .error e => .error e
      | .ok vs => .ok (v :: vs)

/-! Spec-side reference definitions, used to state the properties the code
is compared against (column counting, source order, marker recognition). -/

/-- Spec-side: the span a single whitespace-split token contributes — none
for an empty or pure-whitespace token, otherwise one text span. -/
def tokSpan (tok : List Char) : Option Phrasing :=
  if tok.isEmpty then none
  else if tok.all isWS then none
  else some (.text tok)

/-- Spec-side: the text spans contributed by one newline-free fragment, in
source order. -/
def lineTokenSpans (t : List Char) : List Phrasing :=
  (groupRuns t).filterMap tokSpan

/-- Spec-side: the spans one inline node contributes — a break contributes
nothing, a text node contributes its whitespace-delimited tokens as text
spans, a rich node contributes itself. -/
def spanContrib : Phrasing → List Phrasing
  | .brk => []
  | .text v => ((splitNl v).map lineTokenSpans).flatten
  | .rich t => [Phrasing.rich t]

/-- Spec-side reference for source order: the atomic spans of the input
inline sequence, flattened in order. -/
def sourceSpans (children : List Phrasing) : List Phrasing :=
  (children.map spanContrib).flatten

/-- Spec-side: whether a string starts with one of the marker characters
`|`, `/`, `=`. -/
def startsWithMarker (t : List Char) : Bool :=
  match t with
  | [] => false
  | c :: _ => c = '|' || c = '/' || c = '='

/-! Concrete sample inputs, used for counterexamples and witnesses. -/

/-- A gloss block whose paragraph yields the classified lines
`[row "a", meta "b", row "c"]` — the meta line sits at interior index 1. -/
def badBlock : Directive :=
  ⟨"gloss", 1, [.paragraph [.text "a\n| b\nc".toList]]⟩

/-- A well-formed gloss block with a single text row `x`. -/
def goodBlock : Directive :=
  ⟨"gloss", 2, [.paragraph [.text "x".toList]]⟩

/-- Same node id as `blockB7` but the offending meta line at line index 1. -/
def blockA7 : Directive :=
  ⟨"gloss", 7, [.paragraph [.text "a\n| b\nc".toList]]⟩

/-- Same node id as `blockA7` but the offending meta line at line index 2. -/
def blockB7 : Directive :=
  ⟨"gloss", 7, [.paragraph [.text "a\nc\n| b\nd".toList]]⟩

/-! ### Claim C10 -/

/-- Claim C10: only paragraph children contribute lines to the assembled
Gloss — a child of any other node type is silently skipped by
`parseGlossNode`, producing no rows, no header or footer content, and no
error: the parse result is exactly that of the same child list with the
non-paragraph child removed. -/
theorem C10_skip_nonparagraph (pre post : List BlockNode) (t : Nat) :
    parseGlossNode (pre ++ BlockNode.other t :: post) =
      parseGlossNode (pre ++ post) := by
  have h : collectLines (pre ++ BlockNode.other t :: post) =
      collectLines (pre ++ post) := by
    unfold collectLines
    rw [List.foldl_append, List.foldl_append]
    rfl
  unfold parseGlossNode assembleLines
  rw [h]

/-! ### Claims C3 and C4 -/

/-- Sample row list: a two-word text row and a zero-word gloss row. -/
def sampleRows : List GlossRow :=
  [⟨.text, [[.rich 0], [.rich 1]]⟩, ⟨.gloss, []⟩]

theorem foldlMax_init_le (l : List Nat) (i : Nat) : i ≤ l.foldl max i := by
  induction l generalizing i with
  | nil => exact le_refl _
  | cons b l ih => exact le_trans (le_max_left i b) (ih (max i b))

theorem foldlMax_le_of_mem (l : List Nat) (i a : Nat) (h : a ∈ l) :
    a ≤ l.foldl max i := by
  induction l generalizing i with
  | nil => cases h
  | cons b l ih =>
    rcases List.mem_cons.mp h with rfl | hb
    · exact le_trans (le_max_right i a) (foldlMax_init_le l (max i a))
    · exact ih (max i b) hb

theorem foldlMax_choice (l : List Nat) (i : Nat) :
    l.foldl max i = i ∨ ∃ a ∈ l, l.foldl max i = a := by
  induction l generalizing i with
  | nil => exact Or.inl rfl
  | cons b l ih =>
    rcases ih (max i b) with h | ⟨a, ha, h⟩
    · rcases max_choice i b with hm | hm
      · exact Or.inl (by rw [List.foldl_cons, h, hm])
      · exact Or.inr ⟨b, List.mem_cons_self .., by rw [List.foldl_cons, h, hm]⟩
    · exact Or.inr ⟨a, List.mem_cons_of_mem _ ha, by rw [List.foldl_cons, h]⟩

theorem length_buildColumns (rows : List GlossRow) :
    (buildColumns rows).length =
      (rows.map (fun r => r.words.length)).foldl max 0 := by
  simp [buildColumns, List.foldl_map]

/-- Claim C3: for every row list, `buildColumns` produces one cell list per
column with exactly `rows.length` entries in original row order; the cell
for a row at column `j` pairs the row's role with `row.words[j]?`, which is
`none` exactly when `j` is at least the row's word count; and an absent cell
(`none`) is distinct from an intentionally empty word (`some []`).  It is a
total function, so uneven row lengths never produce an error. -/
theorem C3_cells :
    (∀ (rows : List GlossRow) (j : Nat), j < (buildColumns rows).length →
        (buildColumns rows)[j]? =
          some (rows.map (fun row => ColumnWord.mk row.type row.words[j]?)))
    ∧ (∀ (rows : List GlossRow) (j : Nat) (col : List ColumnWord),
        (buildColumns rows)[j]? = some col → col.length = rows.length)
    ∧ (∀ (row : GlossRow) (j : Nat), row.words[j]? = none ↔ row.words.length ≤ j)
    ∧ (∀ t : RowType, ColumnWord.mk t (some []) ≠ ColumnWord.mk t none) := by
  refine ⟨?_, ?_, ?_, ?_⟩
  · intro rows j hj
    simp only [buildColumns, List.length_map, List.length_range] at hj
    simp only [buildColumns, List.getElem?_map, List.getElem?_range hj,
      Option.map_some']
  · intro rows j col h
    simp only [buildColumns, List.getElem?_map] at h
    cases hr : (List.range
        (rows.foldl (fun m row => max m row.words.length) 0))[j]? with
    | none => rw [hr] at h; exact absurd h (by simp)
    | some k =>
      rw [hr] at h
      simp only [Option.map_some', Option.some_inj] at h
      rw [← h, List.length_map]
  · intro row j
    exact List.getElem?_eq_none_iff
  · intro t h
    injection h with h1 h2
    exact Option.noConfusion h2

/-- Witness for C3 at `sampleRows` and column index 1. -/
theorem C3_cells_witness :
    (buildColumns sampleRows)[1]? =
        some (sampleRows.map (fun row => ColumnWord.mk row.type row.words[1]?))
    ∧ (sampleRows.map
        (fun row => ColumnWord.mk row.type row.words[1]?)).length =
        sampleRows.length
    ∧ ((sampleRows.get ⟨1, by decide⟩).words[1]? = none ↔
        (sampleRows.get ⟨1, by decide⟩).words.length ≤ 1)
    ∧ ColumnWord.mk RowType.text (some []) ≠ ColumnWord.mk RowType.text none :=
  ⟨C3_cells.1 sampleRows 1 (by decide),
   C3_cells.2.1 sampleRows 1 _ (C3_cells.1 sampleRows 1 (by decide)),
   C3_cells.2.2.1 _ 1,
   C3_cells.2.2.2 RowType.text⟩

/-- Claim C4: the number of columns produced by `buildColumns` equals the
maximum word count over all rows (every row's word count is bounded by it,
and some row attains it when rows exist), and equals 0 on the empty row
list. -/
theorem C4_column_count :
    (∀ rows : List GlossRow, rows = [] → (buildColumns rows).length = 0)
    ∧ (∀ (rows : List GlossRow) (r : GlossRow), r ∈ rows →
        r.words.length ≤ (buildColumns rows).length)
    ∧ (∀ rows : List GlossRow, rows ≠ [] →
        ∃ r ∈ rows, (buildColumns rows).length = r.words.length) := by
  refine ⟨?_, ?_, ?_⟩
  · intro rows h
    subst h
    rfl
  · intro rows r hr
    rw [length_buildColumns]
    exact foldlMax_le_of_mem _ _ _ (List.mem_map_of_mem _ hr)
  · intro rows hne
    rw [length_buildColumns]
    rcases foldlMax_choice (rows.map (fun r => r.words.length)) 0 with h | ⟨a, ha, h⟩
    · rcases List.exists_mem_of_ne_nil rows hne with ⟨r0, hr0⟩
      refine ⟨r0, hr0, le_antisymm ?_ ?_⟩
      · rw [h]; exact Nat.zero_le _
      · rw [← h] at *
        exact foldlMax_le_of_mem _ _ _ (List.mem_map_of_mem _ hr0)
    · rcases List.mem_map.mp ha with ⟨r, hr, rfl⟩
      exact ⟨r, hr, h⟩

/-- Witness for C4 at the empty list and at `sampleRows`. -/
theorem C4_column_count_witness :
    (buildColumns []).length = 0
    ∧ (sampleRows.get ⟨0, by decide⟩).words.length ≤
        (buildColumns sampleRows).length :=
  ⟨C4_column_count.1 [] rfl,
   C4_column_count.2.1 sampleRows _ (List.get_mem ..)⟩

/-! ### Claim C2: the assembly loop -/

theorem assembleGo_error_of_interior_meta (ls : List LineEntry) :
    ∀ (n i : Nat) (h f : Option (List Phrasing)) (r : List GlossRow)
      (j : Nat) (c : List Phrasing),
      ls[j]? = some (.meta c) → i + j ≠ 0 → i + j ≠ n - 1 →
      assembleGo n i h f r ls = .error structuralErrorMsg := by
  induction ls with
  | nil => intro n i h f r j c hj _ _; simp at hj
  | cons l ls ih =>
    intro n i h f r j c hj hi0 hin
    cases j with
    | zero =>
      rw [List.getElem?_cons_zero, Option.some_inj] at hj
      subst hj
      rw [Nat.add_zero] at hi0 hin
      show (if i ≠ 0 ∧ i ≠ n - 1 then _ else _) = _
      rw [if_pos ⟨hi0, hin⟩]
    | succ j' =>
      rw [List.getElem?_cons_succ] at hj
      cases l with
      | row r' =>
        exact ih n (i + 1) h f (r ++ [r']) j' c hj (by omega) (by omega)
      | meta c' =>
        show (if i ≠ 0 ∧ i ≠ n - 1 then _ else _) = _
        by_cases hbad : i ≠ 0 ∧ i ≠ n - 1
        · rw [if_pos hbad]
        · rw [if_neg hbad]
          by_cases hz : i = 0
          · rw [if_pos hz]
            exact ih n (i + 1) (some c') f r j' c hj (by omega) (by omega)
          · rw [if_neg hz]
            exact ih n (i + 1) h (some c') r j' c hj (by omega) (by omega)

theorem assembleGo_ok_rows (ls : List LineEntry) :
    ∀ (n i : Nat) (h f : Option (List Phrasing)) (r : List GlossRow) (g : Gloss),
      assembleGo n i h f r ls = .ok g → g.rows = r ++ rowsOf ls := by
  induction ls with
  | nil =>
    intro n i h f r g hg
    injection hg with hg
    subst hg
    simp [rowsOf]
  | cons l ls ih =>
    intro n i h f r g hg
    cases l with
    | row r' =>
      have := ih n (i + 1) h f (r ++ [r']) g hg
      simpa [rowsOf, List.filterMap_cons] using this
    | meta c' =>
      rw [show assembleGo n i h f r (.meta c' :: ls) =
          (if i ≠ 0 ∧ i ≠ n - 1 then .error structuralErrorMsg
           else if i = 0 then assembleGo n (i + 1) (some c') f r ls
           else assembleGo n (i + 1) h (some c') r ls) from rfl] at hg
      by_cases hbad : i ≠ 0 ∧ i ≠ n - 1
      · rw [if_pos hbad] at hg; cases hg
      · rw [if_neg hbad] at hg
        by_cases hz : i = 0
        · rw [if_pos hz] at hg
          simpa [rowsOf, List.filterMap_cons] using ih n (i + 1) (some c') f r g hg
        · rw [if_neg hz] at hg
          simpa [rowsOf, List.filterMap_cons] using ih n (i + 1) h (some c') r g hg

theorem assembleGo_ok_header (ls : List LineEntry) :
    ∀ (n i : Nat) (h f : Option (List Phrasing)) (r : List GlossRow) (g : Gloss),
      1 ≤ i → assembleGo n i h f r ls = .ok g → g.header = h := by
  induction ls with
  | nil =>
    intro n i h f r g _ hg
    injection hg with hg
    subst hg
    rfl
  | cons l ls ih =>
    intro n i h f r g hi hg
    cases l with
    | row r' => exact ih n (i + 1) h f (r ++ [r']) g (Nat.le_succ_of_le hi) hg
    | meta c' =>
      rw [show assembleGo n i h f r (.meta c' :: ls) =
          (if i ≠ 0 ∧ i ≠ n - 1 then .error structuralErrorMsg
           else if i = 0 then assembleGo n (i + 1) (some c') f r ls
           else assembleGo n (i + 1) h (some c') r ls) from rfl] at hg
      by_cases hbad : i ≠ 0 ∧ i ≠ n - 1
      · rw [if_pos hbad] at hg; cases hg
      · rw [if_neg hbad] at hg
        have hz : ¬i = 0 := by omega
        rw [if_neg hz] at hg
        exact ih n (i + 1) h (some c') r g (Nat.le_succ_of_le hi) hg

theorem assembleGo_ok_footer (ls : List LineEntry) :
    ∀ (n i : Nat) (h f : Option (List Phrasing)) (r : List GlossRow) (g : Gloss)
      (c : List Phrasing),
      ls.getLast? = some (.meta c) → i + ls.length = n → n - 1 ≠ 0 →
      assembleGo n i h f r ls = .ok g → g.footer = some c := by
  induction ls with
  | nil => intro n i h f r g c hlast _ _ _; cases hlast
  | cons l ls ih =>
    intro n i h f r g c hlast hn hn1 hg
    cases ls with
    | nil =>
      rw [List.getLast?_singleton, Option.some_inj] at hlast
      subst hlast
      simp only [List.length_cons, List.length_nil] at hn
      have hiz : ¬(i ≠ 0 ∧ i ≠ n - 1) := by omega
      have hz : ¬i = 0 := by omega
      rw [show assembleGo n i h f r [.meta c] =
          (if i ≠ 0 ∧ i ≠ n - 1 then .error structuralErrorMsg
           else if i = 0 then assembleGo n (i + 1) (some c) f r []
           else assembleGo n (i + 1) h (some c) r []) from rfl,
        if_neg hiz, if_neg hz] at hg
      injection hg with hg
      subst hg
      rfl
    | cons l2 ls2 =>
      rw [List.getLast?_cons_cons] at hlast
      have hn' : (i + 1) + (l2 :: ls2).length = n := by
        simp only [List.length_cons] at hn ⊢; omega
      cases l with
      | row r' => exact ih n (i + 1) h f (r ++ [r']) g c hlast hn' hn1 hg
      | meta c' =>
        rw [show assembleGo n i h f r (.meta c' :: l2 :: ls2) =
            (if i ≠ 0 ∧ i ≠ n - 1 then .error structuralErrorMsg
             else if i = 0 then assembleGo n (i + 1) (some c') f r (l2 :: ls2)
             else assembleGo n (i + 1) h (some c') r (l2 :: ls2)) from rfl] at hg
        by_cases hbad : i ≠ 0 ∧ i ≠ n - 1
        · rw [if_pos hbad] at hg; cases hg
        · rw [if_neg hbad] at hg
          by_cases hz : i = 0
          · rw [if_pos hz] at hg
            exact ih n (i + 1) (some c') f r g c hlast hn' hn1 hg
          · rw [if_neg hz] at hg
            exact ih n (i + 1) h (some c') r g c hlast hn' hn1 hg

/-- Claim C2: placement law of the assembly loop.  A meta line at an index
other than 0 and n−1 makes the whole assembly fail with the structural
error; in a successful assembly a meta line at index 0 became the header, a
meta line at index n−1 with n>1 became the footer, and the rows are exactly
the non-meta lines in original order with their role and words; a single
meta line yields a header and no footer (header wins). -/
theorem C2_placement :
    (∀ (lines : List LineEntry) (j : Nat) (c : List Phrasing),
        lines[j]? = some (.meta c) → j ≠ 0 → j ≠ lines.length - 1 →
        assembleLines lines = .error structuralErrorMsg)
    ∧ (∀ (lines : List LineEntry) (g : Gloss) (c : List Phrasing),
        assembleLines lines = .ok g → lines.head? = some (.meta c) →
        g.header = some c)
    ∧ (∀ (lines : List LineEntry) (g : Gloss) (c : List Phrasing),
        assembleLines lines = .ok g → 1 < lines.length →
        lines.getLast? = some (.meta c) → g.footer = some c)
    ∧ (∀ c : List Phrasing,
        assembleLines [.meta c] = .ok ⟨some c, [], none⟩)
    ∧ (∀ (lines : List LineEntry) (g : Gloss),
        assembleLines lines = .ok g → g.rows = rowsOf lines) := by
  refine ⟨?_, ?_, ?_, ?_, ?_⟩
  · intro lines j c hj hj0 hjn
    exact assembleGo_error_of_interior_meta lines lines.length 0 none none [] j c hj
      (by simpa using hj0) (by simpa using hjn)
  · intro lines g c hok hhead
    cases lines with
    | nil => cases hhead
    | cons l ls =>
      rw [List.head?_cons, Option.some_inj] at hhead
      subst hhead
      unfold assembleLines at hok
      rw [show assembleGo (LineEntry.meta c :: ls).length 0 none none []
            (.meta c :: ls) =
          (if (0 : Nat) ≠ 0 ∧ (0 : Nat) ≠ (LineEntry.meta c :: ls).length - 1 then
            .error structuralErrorMsg
           else if (0 : Nat) = 0 then
            assembleGo (LineEntry.meta c :: ls).length 1 (some c) none [] ls
           else assembleGo (LineEntry.meta c :: ls).length 1 none (some c) [] ls)
          from rfl,
        if_neg (by simp), if_pos rfl] at hok
      exact assembleGo_ok_header ls _ 1 (some c) none [] g (le_refl 1) hok
  · intro lines g c hok hlen hlast
    exact assembleGo_ok_footer lines lines.length 0 none none [] g c hlast
      (by simp) (by omega) hok
  · intro c
    rfl
  · intro lines g hok
    exact assembleGo_ok_rows lines lines.length 0 none none [] g hok

/-- Witness for C2: a concrete interior meta line fails; concrete header,
footer, single-meta and rows cases succeed. -/
theorem C2_placement_witness :
    assembleLines [.row ⟨.text, []⟩, .meta [.rich 0], .row ⟨.text, []⟩] =
        .error structuralErrorMsg
    ∧ (⟨some [.rich 1], [⟨.text, []⟩], none⟩ : Gloss).header = some [.rich 1]
    ∧ (⟨none, [⟨.text, []⟩], some [.rich 2]⟩ : Gloss).footer = some [.rich 2]
    ∧ assembleLines [.meta [.rich 3]] = .ok ⟨some [.rich 3], [], none⟩
    ∧ (⟨none, [⟨.gloss, []⟩], none⟩ : Gloss).rows =
        rowsOf [.row ⟨.gloss, []⟩] :=
  ⟨C2_placement.1 [.row ⟨.text, []⟩, .meta [.rich 0], .row ⟨.text, []⟩] 1 [.rich 0]
      rfl (by decide) (by decide),
   C2_placement.2.1 [.meta [.rich 1], .row ⟨.text, []⟩]
      ⟨some [.rich 1], [⟨.text, []⟩], none⟩ [.rich 1] rfl rfl,
   C2_placement.2.2.1 [.row ⟨.text, []⟩, .meta [.rich 2]]
      ⟨none, [⟨.text, []⟩], some [.rich 2]⟩ [.rich 2] rfl (by decide) rfl,
   C2_placement.2.2.2.1 [.rich 3],
   C2_placement.2.2.2.2 [.row ⟨.gloss, []⟩] ⟨none, [⟨.gloss, []⟩], none⟩
      rfl⟩

/-! ### Claims C5 and C9: the line classifier -/

theorem parseLineMarker_text_head (t : List Char) (w : Word) (rest : List Word) :
    parseLineMarker ((Phrasing.text t :: w) :: rest) =
      match matchMarker t with
      | none => .row .text ((Phrasing.text t :: w) :: rest)
      | some (marker, remainder) =>
        let newFirstWord :=
          if 0 < remainder.length then Phrasing.text remainder :: w else w
        let newWords :=
          if 0 < newFirstWord.length then newFirstWord :: rest else rest
        if marker = '|' then .meta (metaContent newWords)
        else if marker = '/' then .row .transliteration newWords
        else if marker = '=' then .row .gloss newWords
        else .row .text ((Phrasing.text t :: w) :: rest) := rfl

/-- Claim C5: the classifier returns role `text` with words unchanged when
the first word is empty, when its first span is not plain text, or when the
first span's text does not start with a marker (which is exactly when the
marker match fails); on a marker match it strips the marker and following
whitespace, drops the span and then the word if emptied (later words
undisturbed — `strippedTail`), and maps `|`/`/`/`=` to meta,
transliteration and gloss; in particular the line `["="]` yields a gloss
row with no words. -/
theorem C5_classifier :
    (∀ rest : List Word, parseLineMarker ([] :: rest) = .row .text ([] :: rest))
    ∧ (∀ (sp : Phrasing) (w : Word) (rest : List Word), sp.isText = false →
        parseLineMarker ((sp :: w) :: rest) = .row .text ((sp :: w) :: rest))
    ∧ (∀ (t : List Char) (w : Word) (rest : List Word), matchMarker t = none →
        parseLineMarker ((Phrasing.text t :: w) :: rest) =
          .row .text ((Phrasing.text t :: w) :: rest))
    ∧ (∀ t : List Char, matchMarker t = none ↔ startsWithMarker t = false)
    ∧ (∀ (c : Char) (cs : List Char) (w : Word) (rest : List Word),
        c = '|' ∨ c = '/' ∨ c = '=' →
        parseLineMarker ((Phrasing.text (c :: cs) :: w) :: rest) =
          (if c = '|' then .meta (metaContent (strippedTail cs w rest))
           else if c = '/' then .row .transliteration (strippedTail cs w rest)
           else .row .gloss (strippedTail cs w rest)))
    ∧ parseLineMarker [[Phrasing.text ['=']]] = .row .gloss [] := by
  refine ⟨?_, ?_, ?_, ?_, ?_, rfl⟩
  · intro rest
    rfl
  · intro sp w rest hsp
    cases sp with
    | text t => simp [Phrasing.isText] at hsp
    | brk => rfl
    | rich t => rfl
  · intro t w rest ht
    rw [parseLineMarker_text_head, ht]
  · intro t
    cases t with
    | nil => simp [matchMarker, startsWithMarker]
    | cons c cs =>
      by_cases h : c = '|' ∨ c = '/' ∨ c = '='
      · simp [matchMarker, startsWithMarker, h]
        rcases h with rfl | rfl | rfl <;> simp
      · simp [matchMarker, startsWithMarker, h]
        push_neg at h
        simp [h.1, h.2.1, h.2.2]
  · intro c cs w rest hc
    have hm : matchMarker (c :: cs) =
        some (c, cs.dropWhile isWS) := by
      simp [matchMarker, hc]
    rw [parseLineMarker_text_head, hm]
    rcases hc with rfl | rfl | rfl <;> simp [strippedTail]

/-- Witness for C5 at concrete lines. -/
theorem C5_classifier_witness :
    parseLineMarker [[Phrasing.brk, Phrasing.rich 0], [Phrasing.rich 1]] =
        .row .text [[Phrasing.brk, Phrasing.rich 0], [Phrasing.rich 1]]
    ∧ parseLineMarker [[Phrasing.text "abc".toList]] =
        .row .text [[Phrasing.text "abc".toList]]
    ∧ (matchMarker "abc".toList = none ↔ startsWithMarker "abc".toList = false)
    ∧ parseLineMarker [[Phrasing.text "/x".toList, Phrasing.rich 2]] =
        (if ('/' : Char) = '|' then
          ParsedLine.meta (metaContent (strippedTail "x".toList [Phrasing.rich 2] []))
         else if ('/' : Char) = '/' then
          ParsedLine.row .transliteration (strippedTail "x".toList [Phrasing.rich 2] [])
         else ParsedLine.row .gloss (strippedTail "x".toList [Phrasing.rich 2] [])) :=
  ⟨C5_classifier.2.1 Phrasing.brk [Phrasing.rich 0] [[Phrasing.rich 1]] rfl,
   C5_classifier.2.2.1 "abc".toList [] [] (by decide),
   C5_classifier.2.2.2.1 "abc".toList,
   C5_classifier.2.2.2.2.1 '/' "x".toList [Phrasing.rich 2] []
      (Or.inr (Or.inl rfl))⟩

/-- Claim C9: the `meta` flattening law — the code's flattening loop equals
inserting exactly one single-space text span between adjacent words (none
at the ends); every produced `meta` content has this intercalated shape;
and for the marked roles `/` and `=` (and the unmarked `text` role) the
output remains a sequence of words, unflattened. -/
theorem C9_meta_flatten :
    (∀ ws : List Word,
        metaContent ws = List.intercalate [Phrasing.text [' ']] ws)
    ∧ (∀ (line : Line) (content : List Phrasing),
        parseLineMarker line = .meta content →
        ∃ ws : List Word,
          content = List.intercalate [Phrasing.text [' ']] ws)
    ∧ (∀ (cs : List Char) (w : Word) (rest : List Word),
        parseLineMarker ((Phrasing.text ('/' :: cs) :: w) :: rest) =
          .row .transliteration (strippedTail cs w rest))
    ∧ (∀ (cs : List Char) (w : Word) (rest : List Word),
        parseLineMarker ((Phrasing.text ('=' :: cs) :: w) :: rest) =
          .row .gloss (strippedTail cs w rest)) := by
  have hmc : ∀ ws : List Word,
      metaContent ws = List.intercalate [Phrasing.text [' ']] ws := by
    intro ws
    cases ws with
    | nil => rfl
    | cons w ws =>
      induction ws generalizing w with
      | nil => simp [metaContent, List.intercalate]
      | cons w2 ws ih =>
        have h2 := ih w2
        simp only [metaContent, List.intercalate, List.intersperse] at h2 ⊢
        simp only [List.map_cons, List.flatten_cons]
        rw [← h2]
        simp
  refine ⟨hmc, ?_, ?_, ?_⟩
  · intro line content hline
    match line with
    | [] => cases hline
    | [] :: rest => cases hline
    | (Phrasing.brk :: w) :: rest => cases hline
    | (Phrasing.rich t :: w) :: rest => cases hline
    | (Phrasing.text t :: w) :: rest =>
      rw [parseLineMarker_text_head] at hline
      cases hm : matchMarker t with
      | none => rw [hm] at hline; cases hline
      | some p =>
        rw [hm] at hline
        obtain ⟨marker, remainder⟩ := p
        by_cases h1 : marker = '|'
        · simp only [h1, if_pos] at hline
          injection hline with hcontent
          subst hcontent
          exact ⟨_, hmc _⟩
        · simp only [h1, if_neg, if_false] at hline
          by_cases h2 : marker = '/'
          · simp [h2] at hline
          · by_cases h3 : marker = '='
            · simp [h2, h3] at hline
            · simp [h2, h3] at hline
  · intro cs w rest
    have hm : matchMarker ('/' :: cs) = some ('/', cs.dropWhile isWS) := by
      simp [matchMarker]
    rw [parseLineMarker_text_head, hm]
    simp [strippedTail]
  · intro cs w rest
    have hm : matchMarker ('=' :: cs) = some ('=', cs.dropWhile isWS) := by
      simp [matchMarker]
    rw [parseLineMarker_text_head, hm]
    simp [strippedTail]

/-- Witness for C9 at a concrete meta line with two remaining words. -/
theorem C9_meta_flatten_witness :
    metaContent [[Phrasing.rich 0], [Phrasing.rich 1]] =
        List.intercalate [Phrasing.text [' ']] [[Phrasing.rich 0], [Phrasing.rich 1]]
    ∧ (∃ ws : List Word,
        metaContent [[Phrasing.rich 4]] =
          List.intercalate [Phrasing.text [' ']] ws)
    ∧ parseLineMarker [[Phrasing.text "/a".toList]] =
        .row .transliteration (strippedTail "a".toList [] []) :=
  ⟨C9_meta_flatten.1 [[Phrasing.rich 0], [Phrasing.rich 1]],
   C9_meta_flatten.2.1 [[Phrasing.text "|".toList], [Phrasing.rich 4]]
      (metaContent [[Phrasing.rich 4]]) (by decide),
   C9_meta_flatten.2.2.1 "a".toList [] []⟩

/-! ### Claim C8: equivalence of the two line-break mechanisms -/

theorem splitNl_ne_nil (t : List Char) : splitNl t ≠ [] := by
  cases t with
  | nil => simp [splitNl]
  | cons c cs =>
    simp only [splitNl]
    by_cases h : c = '\n'
    · simp [h]
    · rw [if_neg h]
      cases hs : splitNl cs <;> simp

theorem splitNl_append_nl (a b : List Char) :
    splitNl (a ++ '\n' :: b) = splitNl a ++ splitNl b := by
  induction a with
  | nil => simp [splitNl]
  | cons c cs ih =>
    by_cases h : c = '\n'
    · subst h
      show splitNl ('\n' :: (cs ++ '\n' :: b)) = splitNl ('\n' :: cs) ++ splitNl b
      simp only [splitNl, if_pos rfl]
      rw [ih]
      rfl
    · show splitNl (c :: (cs ++ '\n' :: b)) = splitNl (c :: cs) ++ splitNl b
      simp only [splitNl, if_neg h]
      rw [ih]
      cases hs : splitNl cs with
      | nil => exact absurd hs (splitNl_ne_nil cs)
      | cons l ls => rfl

theorem processTextNode_append_nl (a b : List Char) (st : List Line) :
    processTextNode (a ++ '\n' :: b) st =
      processTextNode b (newLine (processTextNode a st)) := by
  obtain ⟨h, ts, ha⟩ := List.exists_cons_of_ne_nil (splitNl_ne_nil a)
  obtain ⟨h', ts', hb⟩ := List.exists_cons_of_ne_nil (splitNl_ne_nil b)
  unfold processTextNode
  rw [splitNl_append_nl, ha, hb]
  simp only [List.cons_append]
  rw [List.foldl_append]
  rfl

/-- Claim C8: the two line-break mechanisms are equivalent — replacing an
explicit break node by a text node holding a literal newline yields the
same extracted lines, and a newline inside a larger text node behaves
exactly as a break between the two halves. -/
theorem C8_break_equiv :
    (∀ pre post : List Phrasing,
        extractLines (pre ++ Phrasing.brk :: post) =
          extractLines (pre ++ Phrasing.text ['\n'] :: post))
    ∧ (∀ (pre post : List Phrasing) (a b : List Char),
        extractLines (pre ++ Phrasing.text (a ++ '\n' :: b) :: post) =
          extractLines
            (pre ++ Phrasing.text a :: Phrasing.brk :: Phrasing.text b :: post)) := by
  constructor
  · intro pre post
    unfold extractLines
    rw [List.foldl_append, List.foldl_append]
    rfl
  · intro pre post a b
    unfold extractLines
    rw [List.foldl_append, List.foldl_append]
    simp only [List.foldl_cons]
    have key : ∀ st : List Line,
        extractStep st (.text (a ++ '\n' :: b)) =
          extractStep (extractStep (extractStep st (.text a)) .brk) (.text b) := by
      intro st
      exact processTextNode_append_nl a b st
    rw [key]

/-! ### Claim C7: extractor output shape and source order -/

/-- The invariant the extraction loop maintains on its line buffer: the
buffer is non-empty and every line in it holds at least one word.  (The
source relies on it: `lines.at(-1)!.at(-1)!` would crash otherwise.) -/
def StInv (st : List Line) : Prop := st ≠ [] ∧ ∀ l ∈ st, l ≠ []

theorem stInv_init : StInv [[[]]] := by
  constructor
  · simp
  · intro l hl
    simp only [List.mem_singleton] at hl
    subst hl
    simp

theorem modifyLast_concat (f : α → α) (l : List α) (a : α) :
    modifyLast f (l ++ [a]) = l ++ [f a] := by
  induction l with
  | nil => rfl
  | cons c l ih =>
    cases l with
    | nil => rfl
    | cons d l' =>
      show c :: modifyLast f ((d :: l') ++ [a]) = c :: ((d :: l') ++ [f a])
      rw [ih]

theorem newLine_inv (st : List Line) (h : StInv st) : StInv (newLine st) := by
  refine ⟨by simp [newLine], ?_⟩
  intro l hl
  rcases List.mem_append.mp hl with hl | hl
  · exact h.2 l hl
  · simp only [List.mem_singleton] at hl
    subst hl
    simp

theorem newLine_flatten (st : List Line) :
    (newLine st).flatten.flatten = st.flatten.flatten := by
  simp [newLine]

theorem newWord_shape (st : List Line) (h : StInv st) :
    ∃ (front : List Line) (L : Line),
      st = front ++ [L] ∧ newWord st = front ++ [L ++ [[]]] := by
  rcases List.eq_nil_or_concat st with rfl | ⟨front, L, hst⟩
  · exact absurd rfl h.1
  · rw [List.concat_eq_append] at hst
    exact ⟨front, L, hst, by rw [hst, newWord, modifyLast_concat]⟩

theorem newWord_inv (st : List Line) (h : StInv st) : StInv (newWord st) := by
  obtain ⟨front, L, hst, hnw⟩ := newWord_shape st h
  rw [hnw]
  refine ⟨by simp, ?_⟩
  intro l hl
  rcases List.mem_append.mp hl with hl | hl
  · exact h.2 l (hst ▸ List.mem_append.mpr (Or.inl hl))
  · simp only [List.mem_singleton] at hl
    subst hl
    simp

theorem newWord_flatten (st : List Line) (h : StInv st) :
    (newWord st).flatten.flatten = st.flatten.flatten := by
  obtain ⟨front, L, hst, hnw⟩ := newWord_shape st h
  rw [hnw, hst]
  simp

theorem pushSpan_shape (st : List Line) (x : Phrasing) (h : StInv st) :
    ∃ (front : List Line) (wf : Line) (w : Word),
      st = front ++ [wf ++ [w]] ∧
      pushSpan x st = front ++ [wf ++ [w ++ [x]]] := by
  rcases List.eq_nil_or_concat st with rfl | ⟨front, L, hst⟩
  · exact absurd rfl h.1
  · rw [List.concat_eq_append] at hst
    have hL : L ≠ [] := h.2 L (hst ▸ List.mem_append.mpr (Or.inr (by simp)))
    rcases List.eq_nil_or_concat L with rfl | ⟨wf, w, hL2⟩
    · exact absurd rfl hL
    · rw [List.concat_eq_append] at hL2
      subst hL2
      refine ⟨front, wf, w, hst, ?_⟩
      rw [hst, pushSpan, modifyLast_concat, modifyLast_concat]

theorem pushSpan_inv (st : List Line) (x : Phrasing) (h : StInv st) :
    StInv (pushSpan x st) := by
  obtain ⟨front, wf, w, hst, hps⟩ := pushSpan_shape st x h
  rw [hps]
  refine ⟨by simp, ?_⟩
  intro l hl
  rcases List.mem_append.mp hl with hl | hl
  · exact h.2 l (hst ▸ List.mem_append.mpr (Or.inl hl))
  · simp only [List.mem_singleton] at hl
    subst hl
    simp

theorem pushSpan_flatten (st : List Line) (x : Phrasing) (h : StInv st) :
    (pushSpan x st).flatten.flatten = st.flatten.flatten ++ [x] := by
  obtain ⟨front, wf, w, hst, hps⟩ := pushSpan_shape st x h
  rw [hps, hst]
  simp

theorem processTextLine_spec (text : List Char) (st : List Line) (h : StInv st) :
    StInv (processTextLine text st) ∧
      (processTextLine text st).flatten.flatten =
        st.flatten.flatten ++ lineTokenSpans text := by
  unfold processTextLine lineTokenSpans
  generalize groupRuns text = toks
  induction toks generalizing st with
  | nil => simpa using h
  | cons t toks ih =>
    rw [List.foldl_cons, List.filterMap_cons]
    by_cases h1 : t.isEmpty
    · rw [if_pos h1]
      have := ih st h
      rw [show tokSpan t = none from by simp [tokSpan, h1]]
      simpa using this
    · rw [if_neg h1]
      by_cases h2 : t.all isWS
      · rw [if_pos h2]
        have := ih (newWord st) (newWord_inv st h)
        rw [show tokSpan t = none from by simp [tokSpan, h1, h2]]
        rw [this.2, newWord_flatten st h]
        exact ⟨this.1, by simp⟩
      · rw [if_neg h2]
        have := ih (pushSpan (.text t) st) (pushSpan_inv st _ h)
        rw [show tokSpan t = some (.text t) from by simp [tokSpan, h1, h2]]
        rw [this.2, pushSpan_flatten st _ h]
        exact ⟨this.1, by simp⟩

theorem processLinesFold_spec (ts : List (List Char)) :
    ∀ acc : List Line, StInv acc →
      StInv (ts.foldl (fun ls t2 => processTextLine t2 (newLine ls)) acc) ∧
      (ts.foldl (fun ls t2 => processTextLine t2 (newLine ls)) acc).flatten.flatten =
        acc.flatten.flatten ++ (ts.map lineTokenSpans).flatten := by
  induction ts with
  | nil => intro acc h; simpa using h
  | cons t2 ts ih =>
    intro acc h
    rw [List.foldl_cons]
    have hnl := newLine_inv acc h
    have h2 := processTextLine_spec t2 (newLine acc) hnl
    have := ih (processTextLine t2 (newLine acc)) h2.1
    refine ⟨this.1, ?_⟩
    rw [this.2, h2.2, newLine_flatten]
    simp

theorem processTextNode_spec (text : List Char) (st : List Line) (h : StInv st) :
    StInv (processTextNode text st) ∧
      (processTextNode text st).flatten.flatten =
        st.flatten.flatten ++ ((splitNl text).map lineTokenSpans).flatten := by
  unfold processTextNode
  obtain ⟨t, ts, hsp⟩ := List.exists_cons_of_ne_nil (splitNl_ne_nil text)
  rw [hsp]
  dsimp only
  have hhead := processTextLine_spec t st h
  have := processLinesFold_spec ts (processTextLine t st) hhead.1
  refine ⟨this.1, ?_⟩
  rw [this.2, hhead.2]
  simp

theorem extractStep_spec (child : Phrasing) (st : List Line) (h : StInv st) :
    StInv (extractStep st child) ∧
      (extractStep st child).flatten.flatten =
        st.flatten.flatten ++ spanContrib child := by
  cases child with
  | brk =>
    refine ⟨newLine_inv st h, ?_⟩
    rw [show extractStep st .brk = newLine st from rfl, newLine_flatten]
    simp [spanContrib]
  | text v => exact processTextNode_spec v st h
  | rich t =>
    refine ⟨pushSpan_inv st _ h, ?_⟩
    rw [show extractStep st (.rich t) = pushSpan (.rich t) st from rfl,
      pushSpan_flatten st _ h]
    rfl

theorem extract_fold_spec (children : List Phrasing) :
    ∀ st : List Line, StInv st →
      StInv (children.foldl extractStep st) ∧
      (children.foldl extractStep st).flatten.flatten =
        st.flatten.flatten ++ sourceSpans children := by
  induction children with
  | nil => intro st h; simpa [sourceSpans] using h
  | cons child children ih =>
    intro st h
    rw [List.foldl_cons]
    have hstep := extractStep_spec child st h
    have := ih (extractStep st child) hstep.1
    refine ⟨this.1, ?_⟩
    rw [this.2, hstep.2]
    simp [sourceSpans]

theorem flatten_filter_nonempty (L : List (List α)) :
    (L.filter (fun l => !l.isEmpty)).flatten = L.flatten := by
  induction L with
  | nil => rfl
  | cons a l ih =>
    by_cases h : a.isEmpty
    · rw [List.isEmpty_iff] at h
      subst h
      simpa using ih
    · rw [List.filter_cons, if_pos (by simp [h])]
      simp [ih]

/-- Claim C7: every line produced by `extractLines` is a non-empty sequence
of non-empty words; the spans of the output, flattened, are exactly the
input's atomic spans in source order (so lines and words keep source
order, with empties dropped); and the classifier preserves this
non-emptiness — a row it returns never contains an empty word. -/
theorem C7_nonempty :
    (∀ (children : List Phrasing) (line : Line), line ∈ extractLines children →
        line ≠ [] ∧ ∀ w ∈ line, w ≠ [])
    ∧ (∀ children : List Phrasing,
        (extractLines children).flatten.flatten = sourceSpans children)
    ∧ (∀ (line : Line) (t : RowType) (ws : List Word),
        (∀ w ∈ line, w ≠ []) → parseLineMarker line = .row t ws →
        ∀ w ∈ ws, w ≠ []) := by
  refine ⟨?_, ?_, ?_⟩
  · intro children line hline
    unfold extractLines at hline
    have h1 := List.of_mem_filter hline
    have h2 := List.mem_of_mem_filter hline
    refine ⟨by simpa using h1, ?_⟩
    obtain ⟨L, _, hL⟩ := List.mem_map.mp h2
    intro w hw
    rw [← hL] at hw
    have := List.of_mem_filter hw
    simpa using this
  · intro children
    unfold extractLines
    rw [flatten_filter_nonempty]
    have hm : ∀ st : List Line,
        (st.map (fun line => line.filter (fun w => !w.isEmpty))).flatten.flatten =
          st.flatten.flatten := by
      intro st
      induction st with
      | nil => rfl
      | cons L st ih =>
        rw [List.map_cons, List.flatten_cons, List.flatten_append,
          flatten_filter_nonempty, List.flatten_cons, List.flatten_append, ih]
    rw [hm]
    have := extract_fold_spec children [[[]]] stInv_init
    simpa using this.2
  · intro line t ws hline hparse
    match line with
    | [] =>
      injection hparse with h1 h2
      subst h2
      intro w hw
      cases hw
    | [] :: rest => exact absurd rfl (hline [] (by simp))
    | (Phrasing.brk :: w0) :: rest =>
      injection hparse with h1 h2
      subst h2
      exact hline
    | (Phrasing.rich tg :: w0) :: rest =>
      injection hparse with h1 h2
      subst h2
      exact hline
    | (Phrasing.text tx :: w0) :: rest =>
      rw [parseLineMarker_text_head] at hparse
      cases hm : matchMarker tx with
      | none =>
        rw [hm] at hparse
        injection hparse with h1 h2
        subst h2
        exact hline
      | some p =>
        rw [hm] at hparse
        obtain ⟨marker, remainder⟩ := p
        dsimp only at hparse
        have hrest : ∀ w ∈ rest, w ≠ [] := by
          intro w hw
          exact hline w (List.mem_cons_of_mem _ hw)
        have hwords : ∀ w ∈
            (if 0 < (if 0 < remainder.length then
                Phrasing.text remainder :: w0 else w0).length then
              (if 0 < remainder.length then Phrasing.text remainder :: w0 else w0)
                :: rest
            else rest), w ≠ [] := by
          by_cases hr : 0 < remainder.length
          · rw [if_pos hr]
            intro w hw
            rcases List.mem_cons.mp (by simpa [if_pos hr] using hw) with rfl | hw2
            · simp
            · exact hrest w hw2
          · rw [if_neg hr]
            by_cases hw0 : 0 < w0.length
            · rw [if_pos hw0]
              intro w hw
              rcases List.mem_cons.mp hw with rfl | hw2
              · exact List.ne_nil_of_length_pos hw0
              · exact hrest w hw2
            · rw [if_neg hw0]
              exact hrest
        by_cases h1 : marker = '|'
        · rw [if_pos h1] at hparse
          cases hparse
        · rw [if_neg h1] at hparse
          by_cases h2 : marker = '/'
          · rw [if_pos h2] at hparse
            injection hparse with ht hw
            subst hw
            exact hwords
          · rw [if_neg h2] at hparse
            by_cases h3 : marker = '='
            · rw [if_pos h3] at hparse
              injection hparse with ht hw
              subst hw
              exact hwords
            · rw [if_neg h3] at hparse
              injection hparse with ht hw
              subst hw
              exact hline

/-- Witness for C7 at a concrete paragraph and line. -/
theorem C7_nonempty_witness :
    ((extractLines [Phrasing.text "a b".toList]).get ⟨0, by decide⟩ ≠ [] ∧
      ∀ w ∈ (extractLines [Phrasing.text "a b".toList]).get ⟨0, by decide⟩, w ≠ [])
    ∧ (extractLines [Phrasing.text "a b".toList]).flatten.flatten =
        sourceSpans [Phrasing.text "a b".toList]
    ∧ ∀ w ∈ ([[Phrasing.rich 9]] : List Word), w ≠ [] :=
  ⟨C7_nonempty.1 [Phrasing.text "a b".toList] _ (List.get_mem ..),
   C7_nonempty.2.1 [Phrasing.text "a b".toList],
   C7_nonempty.2.2 [[Phrasing.text "/".toList, Phrasing.rich 9]]
      .transliteration [[Phrasing.rich 9]]
      (by intro w hw; simp only [List.mem_singleton] at hw; subst hw; simp)
      (by decide)⟩

/-! ### Claims C1 and C6: what the structural error looks like and how it
propagates -/

theorem assembleGo_error_msg (ls : List LineEntry) :
    ∀ (n i : Nat) (h f : Option (List Phrasing)) (r : List GlossRow)
      (e : String),
      assembleGo n i h f r ls = .error e → e = structuralErrorMsg := by
  induction ls with
  | nil => intro n i h f r e he; cases he
  | cons l ls ih =>
    intro n i h f r e he
    cases l with
    | row r' => exact ih n (i + 1) h f (r ++ [r']) e he
    | meta c' =>
      rw [show assembleGo n i h f r (.meta c' :: ls) =
          (if i ≠ 0 ∧ i ≠ n - 1 then .error structuralErrorMsg
           else if i = 0 then assembleGo n (i + 1) (some c') f r ls
           else assembleGo n (i + 1) h (some c') r ls) from rfl] at he
      by_cases hbad : i ≠ 0 ∧ i ≠ n - 1
      · rw [if_pos hbad] at he
        injection he with he
        exact he.symm
      · rw [if_neg hbad] at he
        by_cases hz : i = 0
        · rw [if_pos hz] at he
          exact ih n (i + 1) (some c') f r e he
        · rw [if_neg hz] at he
          exact ih n (i + 1) h (some c') r e he

/-- Counterexample to claim C6 as stated: two gloss blocks whose offending
meta lines sit at different line indices (1 and 2) produce *identical*
errors — the same fixed message (which therefore names no position) attached
to the same block node id 7 — so the StructuralError neither names the
offending position nor is attached to that specific line's location. -/
theorem C6_counterexample :
    remarkGloss [blockA7] = remarkGloss [blockB7]
    ∧ remarkGloss [blockA7] = .error ⟨structuralErrorMsg, 7⟩
    ∧ blockA7 ≠ blockB7
    ∧ (collectLines blockA7.children)[1]? = some (.meta [Phrasing.text ['b']])
    ∧ (collectLines blockB7.children)[2]? = some (.meta [Phrasing.text ['b']]) :=
  ⟨rfl, rfl, by decide, by decide, by decide⟩

/-- Claim C6 amended: the StructuralError always carries the one fixed
message (which does not name the offending line index), and `file.fail`
attaches it to the whole gloss block's node, not to the offending line. -/
theorem C6_error_attachment :
    (∀ (children : List BlockNode) (e : String),
        parseGlossNode children = .error e → e = structuralErrorMsg)
    ∧ (∀ (node : Directive) (e : String), node.name = "gloss" →
        parseGlossNode node.children = .error e →
        transformGloss node = .error ⟨e, node.nodeId⟩) := by
  constructor
  · intro children e he
    exact assembleGo_error_msg (collectLines children) _ 0 none none [] e he
  · intro node e hname herr
    unfold transformGloss
    rw [if_pos hname, herr]

/-- Witness for C6's amended form at the concrete failing block. -/
theorem C6_error_attachment_witness :
    structuralErrorMsg = structuralErrorMsg
    ∧ transformGloss badBlock = .error ⟨structuralErrorMsg, 1⟩ :=
  ⟨C6_error_attachment.1 badBlock.children structuralErrorMsg rfl,
   C6_error_attachment.2 badBlock structuralErrorMsg rfl rfl⟩

/-- Counterexample to claim C1 as stated: with a failing gloss block first
and a well-formed gloss block after it in the same document, the document
transform yields only the error — no output at all is produced for the
second block, even though that block transforms fine on its own.  So a
structural failure does not leave the processing of sibling blocks
unaffected. -/
theorem C1_counterexample :
    remarkGloss [badBlock, goodBlock] = .error ⟨structuralErrorMsg, 1⟩
    ∧ remarkGloss [goodBlock] =
        .ok [some ⟨none, [[⟨.text, some [Phrasing.text ['x']]⟩]], none⟩] :=
  ⟨rfl, rfl⟩

/-- Claim C1 amended: the structural error of one block is caught per block
and reported to the caller as a message attached to that block's node — the
process does not crash with an unlocated error — but `file.fail` throws the
message, so it aborts the document's traversal: whatever follows the
failing block is never processed (the result does not depend on `post`). -/
theorem C1_abort_document (pre post : List Directive) (node : Directive)
    (msg : String)
    (hpre : ∀ d ∈ pre, ∃ v, transformGloss d = .ok v)
    (hname : node.name = "gloss")
    (herr : parseGlossNode node.children = .error msg) :
    remarkGloss (pre ++ node :: post) = .error ⟨msg, node.nodeId⟩ := by
  induction pre with
  | nil =>
    show remarkGloss (node :: post) = _
    simp only [remarkGloss]
    rw [show transformGloss node = .error ⟨msg, node.nodeId⟩ from by
      unfold transformGloss; rw [if_pos hname, herr]]
  | cons d pre ih =>
    obtain ⟨v, hv⟩ := hpre d (by simp)
    show remarkGloss (d :: (pre ++ node :: post)) = _
    simp only [remarkGloss]
    rw [hv, ih (fun d2 hd2 => hpre d2 (List.mem_cons_of_mem _ hd2))]

/-- Witness for C1's amended form: a concrete document whose middle block
fails; the block before it succeeds and the block after it is discarded. -/
theorem C1_abort_document_witness :
    remarkGloss [goodBlock, badBlock, goodBlock] =
      .error ⟨structuralErrorMsg, 1⟩ :=
  C1_abort_document [goodBlock] [goodBlock] badBlock structuralErrorMsg
    (by
      intro d hd
      simp only [List.mem_singleton] at hd
      subst hd
      exact ⟨some ⟨none, [[⟨.text, some [Phrasing.text ['x']]⟩]], none⟩, rfl⟩)
    rfl rfl

end GlossPlugin
